import Mathlib

/-!
Verification of the search-engine core in src/pagedb.py.

The module is shallowly embedded: Python floats are modelled as exact
rationals, the Python dict of words (string to sequentially assigned id,
insertion ordered) is modelled as the insertion-ordered list of its keys
(the id of a key is its index), Python sets of link strings are modelled
as finite sets, and the two operations that raise ValueError on an empty
list (the built-ins max and min) return Option. The class attributes
PageDB.words and PageDB.pages, which are process-global state shared by
all instances, are passed explicitly and returned where mutated.
-/

/-- Python built-in max on two rationals: returns b when a < b, else a
(translation of max(a, b)). -/
def pymax (a b : ℚ) : ℚ := if a < b then b else a

/-- Python built-in min on two rationals: returns b when b < a, else a
(translation of min(a, b)). -/
def pymin (a b : ℚ) : ℚ := if b < a then b else a

/-- Python built-in max on a list; none models the ValueError raised on an
empty sequence. -/
def pyListMax : List ℚ → Option ℚ
  | [] => none
  | a :: rest => some (rest.foldl pymax a)

/-- Python built-in min on a list; none models the ValueError raised on an
empty sequence. -/
def pyListMin : List ℚ → Option ℚ
  | [] => none
  | a :: rest => some (rest.foldl pymin a)

/-- Python round(x, 2): rounding of the exact value to two decimal places,
ties going to the even hundredth. -/
def pyround2 (x : ℚ) : ℚ :=
  let y := x * 100
  let f : ℤ := Int.floor y
  let r : ℚ := y - (f : ℚ)
  let n : ℤ :=
    if r < 1/2 then f
    else if 1/2 < r then f + 1
    else if f % 2 = 0 then f else f + 1
  (n : ℚ) / 100

/-- Page record from src/pagedb.py lines 237-260: url, ordered term-id
sequence (self.words), deduplicated outgoing-link set (self.links, a Python
set) and the mutable pagerank score initialised to 1.0 by the constructor. -/
structure Page where
  url : String
  words : List Nat
  links : Finset String
  pagerank : ℚ
deriving DecidableEq

/-- One row of a query result, src/pagedb.py line 147:
[matchPages[i].url, total, res1, res2, res3]. -/
structure ResultRow where
  url : String
  total : ℚ
  c : ℚ
  l : ℚ
  a : ℚ
deriving DecidableEq

/-- Result envelope of PageDB.query, src/pagedb.py line 153 (the wall-clock
duration field is not modelled). -/
structure QueryResult where
  data : List ResultRow
  amount : Nat
deriving DecidableEq

/-- PageDB.get_id_for_word, src/pagedb.py lines 219-234. The dict self.words
is modelled as the insertion-ordered list of its keys; the stored value of a
key equals its list index, because a missing word is recorded with value
len(self.words). Returns the id and the updated dictionary. -/
def PageDB.get_id_for_word (words : List String) (word : String) :
    Nat × List String :=
  if word ∈ words then (words.indexOf word, words)
  else (words.length, words ++ [word])

/-- Folding PageDB.get_id_for_word over a token list, as done by the loops at
src/pagedb.py lines 46-47 (ingestion) and lines 122-123 (query). Returns the
id list and the updated dictionary. -/
def PageDB.wordsToIds (words : List String) : List String → List Nat × List String
  | [] => ([], words)
  | t :: ts =>
    let r1 := PageDB.get_id_for_word words t
    let r2 := PageDB.wordsToIds r1.2 ts
    (r1.1 :: r2.1, r2.2)

/-- PageDB.pagerank, src/pagedb.py lines 82-100: pr accumulates
p.pagerank / len(p.links) over every page p whose link set contains this
page's url, then pr = 0.85 * pr + 0.15. -/
def PageDB.pagerank (pages : List Page) (page : Page) : ℚ :=
  0.85 * (pages.foldl
    (fun pr p =>
      if page.url ∈ p.links then pr + p.pagerank / (p.links.card : ℚ) else pr)
    0) + 0.15

/-- PageDB.normalize, src/pagedb.py lines 194-217. With small_is_better the
list is rewritten to min(scores) / max(scores[i], 0.00001); otherwise every
entry is divided by max(max(scores), 0.00001). The built-ins min and max
raise ValueError on an empty list, modelled by none. -/
def PageDB.normalize (scores : List ℚ) (small_is_better : Bool) :
    Option (List ℚ) :=
  if small_is_better then
    match pyListMin scores with
    | none => none
    | some min_val => some (scores.map (fun s => min_val / pymax s 0.00001))
  else
    match pyListMax scores with
    | none => none
    | some max_val =>
      some (scores.map (fun s => s / pymax max_val 0.00001))

/-- One iteration of the solver loop in PageDB.__init__, src/pagedb.py lines
63-78: all tentative ranks are computed from the current snapshot, the rank
vector is normalized only when this is the last iteration, and only then is
every page's pagerank overwritten. -/
def PageDB.iterationStep (pages : List Page) (last : Bool) :
    Option (List Page) :=
  let ranks := pages.map (PageDB.pagerank pages)
  let ranks2 := if last then PageDB.normalize ranks false else some ranks
  match ranks2 with
  | none => none
  | some rs => some (List.zipWith (fun p r => { p with pagerank := r }) pages rs)

/-- The while loop of src/pagedb.py lines 61-78, counted by remaining
iterations; the final iteration (remaining = 1) is the one with
i == max_iterations - 1, which rescales. -/
def PageDB.solverLoop : Nat → List Page → Option (List Page)
  | 0, pages => some pages
  | n + 1, pages =>
    match PageDB.iterationStep pages (n == 0) with
    | none => none
    | some pages2 => PageDB.solverLoop n pages2

/-- The PageRank phase of PageDB.__init__ (src/pagedb.py lines 61-78):
max_iterations = 20. -/
def PageDB.runPagerank (pages : List Page) : Option (List Page) :=
  PageDB.solverLoop 20 pages

/-- Tokenization of a query string, src/pagedb.py line 122:
query.lower().split() lowercases and splits on whitespace runs, discarding
empty tokens. -/
def PageDB.tokenize (s : String) : List String :=
  (s.toLower.split Char.isWhitespace).filter (fun t => decide (t ≠ ""))

/-- Candidate selection, src/pagedb.py lines 125-129: a page is appended to
matchPages (once, the inner loop breaks) when some query id occurs in its word
sequence. -/
def PageDB.findMatches (pages : List Page) (query_ints : List Nat) :
    List Page :=
  pages.filter (fun page => query_ints.any (fun i => decide (i ∈ page.words)))

/-- PageDB.word_frequency, src/pagedb.py lines 155-169: sums
page.words.count(q) over the query ids. -/
def PageDB.word_frequency (page : Page) (query_ints : List Nat) : Nat :=
  query_ints.foldl (fun score q => score + page.words.count q) 0

/-- PageDB.document_location, src/pagedb.py lines 171-192: for each query id
adds page.words.index(w) + 1, or 100000 when .index raises (id absent). -/
def PageDB.document_location (page : Page) (query_ints : List Nat) : Nat :=
  query_ints.foldl
    (fun score w =>
      match page.words.indexOf? w with
      | some idx => score + (idx + 1)
      | none => score + 100000)
    0

/-- Row construction loop of PageDB.query, src/pagedb.py lines 141-148. -/
def PageDB.buildRows (matchPages : List Page) (content location : List ℚ) :
    List ResultRow :=
  List.zipWith
    (fun (p : Page) (cl : ℚ × ℚ) =>
      let res1 := pyround2 cl.1
      let res2 := pyround2 (cl.2 * 0.8)
      let res3 := pyround2 (p.pagerank * 0.5)
      { url := p.url, total := pyround2 (res1 + res2 + res3),
        c := res1, l := res2, a := res3 })
    matchPages (content.zip location)

/-- Comparison used by sorted(result, key=lambda x: x[1], reverse=True) at
src/pagedb.py line 152: a sorts before b when its total is at least b's. -/
def PageDB.resultLE (a b : ResultRow) : Bool := decide (b.total ≤ a.total)

/-- PageDB.query, src/pagedb.py lines 102-153. Takes the shared dictionary
and page list, returns the result envelope and the updated dictionary
(get_id_for_word mutates it on unseen terms); none models an uncaught
exception. Normalization runs only when matchPages is non-empty; amount is the
row count before the top-5 truncation. -/
def PageDB.query (words : List String) (pages : List Page) (q : String) :
    Option (QueryResult × List String) :=
  let wi := PageDB.wordsToIds words (PageDB.tokenize q)
  let query_ints := wi.1
  let words2 := wi.2
  let matchPages := PageDB.findMatches pages query_ints
  let content := matchPages.map (fun m => ((PageDB.word_frequency m query_ints : ℚ)))
  let location := matchPages.map (fun m => ((PageDB.document_location m query_ints : ℚ)))
  let nscores : Option (List ℚ × List ℚ) :=
    if 0 < matchPages.length then
      match PageDB.normalize content false, PageDB.normalize location true with
      | some nc, some nl => some (nc, nl)
      | _, _ => none
    else some (content, location)
  match nscores with
  | none => none
  | some ncl =>
    let result := PageDB.buildRows matchPages ncl.1 ncl.2
    some ({ data := (result.mergeSort PageDB.resultLE).take 5,
            amount := result.length }, words2)

/-- Input of the ingestion loop for one page, src/pagedb.py lines 38-56: the
decoded file name, the token sequence read from the Words file, and the
decoded link set read from the Links file (file reading and URL decoding are
the excluded corpus collaborator). -/
structure RawPage where
  url : String
  tokens : List String
  links : Finset String

/-- Ingestion loop of PageDB.__init__, src/pagedb.py lines 38-56: every token
is mapped through get_id_for_word (growing the shared dictionary) and a Page
with pagerank 1.0 is appended per file. Returns the updated dictionary and
the new pages in order. -/
def PageDB.ingest (words : List String) : List RawPage → List String × List Page
  | [] => (words, [])
  | r :: rs =>
    let ri := PageDB.wordsToIds words r.tokens
    let rest := PageDB.ingest ri.2 rs
    (rest.1, { url := r.url, words := ri.1, links := r.links, pagerank := 1 } :: rest.2)

/-- Process-global state held by the class attributes PageDB.words and
PageDB.pages (src/pagedb.py lines 16-17): both are class-level, so every
instance reads and mutates the same dictionary and the same page list. -/
structure DBState where
  words : List String
  pages : List Page
deriving DecidableEq

/-- PageDB.__init__, src/pagedb.py lines 19-80, given the already-read
dataset: the new pages are appended to the class-level page list of any
earlier instance, the class-level dictionary keeps growing, and the PageRank
phase then runs over the combined list; none models an uncaught exception. -/
def PageDB.init (s : DBState) (dataset : List RawPage) : Option DBState :=
  let ing := PageDB.ingest s.words dataset
  let pages2 := s.pages ++ ing.2
  match PageDB.runPagerank pages2 with
  | none => none
  | some ps => some { words := ing.1, pages := ps }

/-- Query-term id list built by PageDB.query lines 121-123 for a given
shared dictionary and query string. -/
def PageDB.qIds (words : List String) (q : String) : List Nat :=
  (PageDB.wordsToIds words (PageDB.tokenize q)).1

/-- Dictionary state after the id-mapping loop of PageDB.query lines 121-123
(unseen query terms have been appended). -/
def PageDB.qDict (words : List String) (q : String) : List String :=
  (PageDB.wordsToIds words (PageDB.tokenize q)).2

/-- Candidate list of PageDB.query lines 125-129. -/
def PageDB.qMatches (words : List String) (pages : List Page) (q : String) :
    List Page :=
  PageDB.findMatches pages (PageDB.qIds words q)

/-- Raw content-frequency score list of PageDB.query line 133. -/
def PageDB.qContent (words : List String) (pages : List Page) (q : String) :
    List ℚ :=
  (PageDB.qMatches words pages q).map
    (fun m => ((PageDB.word_frequency m (PageDB.qIds words q) : ℚ)))

/-- Raw document-location score list of PageDB.query line 134. -/
def PageDB.qLocation (words : List String) (pages : List Page) (q : String) :
    List ℚ :=
  (PageDB.qMatches words pages q).map
    (fun m => ((PageDB.document_location m (PageDB.qIds words q) : ℚ)))

/-- Result envelope built from a candidate list and its two (already
normalized when applicable) score lists: rows, stable sort by total
descending, top-5 truncation, amount counted before truncation
(src/pagedb.py lines 141-153). -/
def PageDB.rowsOf (mp : List Page) (c l : List ℚ) : QueryResult :=
  { data := ((PageDB.buildRows mp c l).mergeSort PageDB.resultLE).take 5,
    amount := (PageDB.buildRows mp c l).length }

/-! Helper lemmas about the modelled Python built-ins. -/

theorem pymax_eq_max (a b : ℚ) : pymax a b = max a b := by
  unfold pymax
  rcases lt_or_le a b with h | h
  · simp [h, max_eq_right h.le]
  · simp [not_lt.mpr h, max_eq_left h]

theorem pymin_eq_min (a b : ℚ) : pymin a b = min a b := by
  unfold pymin
  rcases lt_or_le b a with h | h
  · simp [h, min_eq_right h.le]
  · simp [not_lt.mpr h, min_eq_left h]

theorem pymax_eq_left {a b : ℚ} (h : b ≤ a) : pymax a b = a := by
  simp [pymax, not_lt.mpr h]

theorem foldl_pymax_spec (l : List ℚ) :
    ∀ a : ℚ, (l.foldl pymax a = a ∨ l.foldl pymax a ∈ l) ∧
      a ≤ l.foldl pymax a ∧ ∀ x ∈ l, x ≤ l.foldl pymax a := by
  induction l with
  | nil => intro a; simp
  | cons b t ih =>
    intro a
    have hfold : (b :: t).foldl pymax a = t.foldl pymax (pymax a b) := rfl
    obtain ⟨hmem, hle, hall⟩ := ih (pymax a b)
    have hab : a ≤ pymax a b := by rw [pymax_eq_max]; exact le_max_left a b
    have hbb : b ≤ pymax a b := by rw [pymax_eq_max]; exact le_max_right a b
    rw [hfold]
    refine ⟨?_, le_trans hab hle, ?_⟩
    · rcases hmem with h | h
      · rw [h, pymax_eq_max]
        rcases max_choice a b with hc | hc
        · left; exact hc
        · right; rw [hc]; exact List.mem_cons_self b t
      · right; exact List.mem_cons_of_mem b h
    · intro x hx
      rcases List.mem_cons.mp hx with h | h
      · rw [h]; exact le_trans hbb hle
      · exact hall x h

theorem foldl_pymin_spec (l : List ℚ) :
    ∀ a : ℚ, (l.foldl pymin a = a ∨ l.foldl pymin a ∈ l) ∧
      l.foldl pymin a ≤ a ∧ ∀ x ∈ l, l.foldl pymin a ≤ x := by
  induction l with
  | nil => intro a; simp
  | cons b t ih =>
    intro a
    have hfold : (b :: t).foldl pymin a = t.foldl pymin (pymin a b) := rfl
    obtain ⟨hmem, hle, hall⟩ := ih (pymin a b)
    have hab : pymin a b ≤ a := by rw [pymin_eq_min]; exact min_le_left a b
    have hbb : pymin a b ≤ b := by rw [pymin_eq_min]; exact min_le_right a b
    rw [hfold]
    refine ⟨?_, le_trans hle hab, ?_⟩
    · rcases hmem with h | h
      · rw [h, pymin_eq_min]
        rcases min_choice a b with hc | hc
        · left; exact hc
        · right; rw [hc]; exact List.mem_cons_self b t
      · right; exact List.mem_cons_of_mem b h
    · intro x hx
      rcases List.mem_cons.mp hx with h | h
      · rw [h]; exact le_trans hle hbb
      · exact hall x h

theorem pyListMax_spec {l : List ℚ} {m : ℚ} (h : pyListMax l = some m) :
    m ∈ l ∧ ∀ x ∈ l, x ≤ m := by
  cases l with
  | nil => simp [pyListMax] at h
  | cons a t =>
    simp only [pyListMax, Option.some.injEq] at h
    obtain ⟨hmem, hle, hall⟩ := foldl_pymax_spec t a
    subst h
    refine ⟨?_, ?_⟩
    · rcases hmem with h | h
      · rw [h]; exact List.mem_cons_self a t
      · exact List.mem_cons_of_mem a h
    · intro x hx
      rcases List.mem_cons.mp hx with h | h
      · exact h ▸ hle
      · exact hall x h

theorem pyListMin_spec {l : List ℚ} {m : ℚ} (h : pyListMin l = some m) :
    m ∈ l ∧ ∀ x ∈ l, m ≤ x := by
  cases l with
  | nil => simp [pyListMin] at h
  | cons a t =>
    simp only [pyListMin, Option.some.injEq] at h
    obtain ⟨hmem, hle, hall⟩ := foldl_pymin_spec t a
    subst h
    refine ⟨?_, ?_⟩
    · rcases hmem with h | h
      · rw [h]; exact List.mem_cons_self a t
      · exact List.mem_cons_of_mem a h
    · intro x hx
      rcases List.mem_cons.mp hx with h | h
      · exact h ▸ hle
      · exact hall x h

theorem pyListMax_isSome {l : List ℚ} (h : l ≠ []) :
    ∃ m, pyListMax l = some m := by
  cases l with
  | nil => exact absurd rfl h
  | cons a t => exact ⟨t.foldl pymax a, rfl⟩

theorem pyListMin_isSome {l : List ℚ} (h : l ≠ []) :
    ∃ m, pyListMin l = some m := by
  cases l with
  | nil => exact absurd rfl h
  | cons a t => exact ⟨t.foldl pymin a, rfl⟩

theorem pyListMax_eq_some_iff {l : List ℚ} {m : ℚ} :
    pyListMax l = some m ↔ m ∈ l ∧ ∀ x ∈ l, x ≤ m := by
  constructor
  · exact pyListMax_spec
  · rintro ⟨hm, hall⟩
    obtain ⟨r, hr⟩ := pyListMax_isSome (List.ne_nil_of_mem hm)
    obtain ⟨hrmem, hrall⟩ := pyListMax_spec hr
    have : r = m := le_antisymm (hall r hrmem) (hrall m hm)
    exact this ▸ hr

theorem pyListMax_length_eq_none {l : List ℚ} :
    pyListMax l = none ↔ l = [] := by
  cases l <;> simp [pyListMax]

/-! Helper lemmas about the solver. -/

theorem map_pagerank_zipWith :
    ∀ (pages : List Page) (rs : List ℚ), rs.length = pages.length →
      (List.zipWith (fun p r => { p with pagerank := r }) pages rs).map Page.pagerank = rs := by
  intro pages
  induction pages with
  | nil => intro rs h; simp_all
  | cons p t ih =>
    intro rs h
    cases rs with
    | nil => simp at h
    | cons r rt =>
      simp only [List.zipWith_cons_cons, List.map_cons, List.cons.injEq]
      exact ⟨by simp, ih rt (by simpa using h)⟩

theorem map_url_zipWith :
    ∀ (pages : List Page) (rs : List ℚ), rs.length = pages.length →
      (List.zipWith (fun p r => { p with pagerank := r }) pages rs).map Page.url = pages.map Page.url := by
  intro pages
  induction pages with
  | nil => intro rs h; simp_all
  | cons p t ih =>
    intro rs h
    cases rs with
    | nil => simp at h
    | cons r rt =>
      simp only [List.zipWith_cons_cons, List.map_cons, List.cons.injEq]
      exact ⟨by simp, ih rt (by simpa using h)⟩

theorem iterationStep_false (pages : List Page) :
    PageDB.iterationStep pages false
      = some (pages.map (fun p => { p with pagerank := PageDB.pagerank pages p })) := by
  unfold PageDB.iterationStep
  simp only [Bool.false_eq_true, if_false, List.zipWith_map_right, List.zipWith_same]

theorem solverLoop_step (n : Nat) (pages : List Page) :
    PageDB.solverLoop (n + 2) pages
      = PageDB.solverLoop (n + 1)
          (pages.map (fun p => { p with pagerank := PageDB.pagerank pages p })) := by
  have h : ((n + 1 : Nat) == 0) = false := by simp
  conv_lhs => rw [PageDB.solverLoop]
  rw [h, iterationStep_false]

theorem pagerank_foldl_nonneg (u : String) :
    ∀ pages : List Page, (∀ p ∈ pages, 0 ≤ p.pagerank) →
      ∀ acc : ℚ, 0 ≤ acc →
      0 ≤ pages.foldl
        (fun pr p => if u ∈ p.links then pr + p.pagerank / (p.links.card : ℚ) else pr)
        acc := by
  intro pages
  induction pages with
  | nil => intro _ acc h0; simpa
  | cons p t ih =>
    intro h acc h0
    have hp : 0 ≤ p.pagerank := h p (List.mem_cons_self p t)
    have ht : ∀ q ∈ t, 0 ≤ q.pagerank := fun q hq => h q (List.mem_cons_of_mem p hq)
    have hstep : 0 ≤ (if u ∈ p.links then acc + p.pagerank / (p.links.card : ℚ) else acc) := by
      split
      · exact add_nonneg h0 (div_nonneg hp (Nat.cast_nonneg _))
      · exact h0
    exact ih ht _ hstep

theorem pagerank_ge (pages : List Page) (page : Page)
    (h : ∀ p ∈ pages, 0 ≤ p.pagerank) :
    (15/100 : ℚ) ≤ PageDB.pagerank pages page := by
  unfold PageDB.pagerank
  have h0 := pagerank_foldl_nonneg page.url pages h 0 le_rfl
  have h1 : 0 ≤ (0.85 : ℚ) * (pages.foldl
      (fun pr p => if page.url ∈ p.links then pr + p.pagerank / (p.links.card : ℚ) else pr) 0) :=
    mul_nonneg (by norm_num) h0
  have h2 : (0.15 : ℚ) = 15/100 := by norm_num
  linarith

theorem normalize_false_pos {scores : List ℚ} {m : ℚ}
    (hmax : pyListMax scores = some m) (hm : (1/100000 : ℚ) ≤ m) :
    PageDB.normalize scores false = some (scores.map (fun s => s / m)) := by
  have he : pymax m 0.00001 = m := pymax_eq_left (by norm_num; linarith)
  simp [PageDB.normalize, hmax, he]

theorem normalize_true_eq {scores : List ℚ} {m : ℚ}
    (hmin : pyListMin scores = some m) :
    PageDB.normalize scores true = some (scores.map (fun s => m / pymax s 0.00001)) := by
  simp [PageDB.normalize, hmin]

theorem solverLoop_one {pages : List Page} (hne : pages ≠ [])
    (hpos : ∀ p ∈ pages, 0 ≤ p.pagerank) :
    ∃ final, PageDB.solverLoop 1 pages = some final ∧
      final.length = pages.length ∧
      final.map Page.url = pages.map Page.url ∧
      (∀ p ∈ final, 0 ≤ p.pagerank) ∧
      pyListMax (final.map Page.pagerank) = some 1 := by
  have hrne : pages.map (PageDB.pagerank pages) ≠ [] := by
    simpa [List.map_eq_nil_iff] using hne
  have hrlow : ∀ x ∈ pages.map (PageDB.pagerank pages), (15/100 : ℚ) ≤ x := by
    intro x hx
    obtain ⟨p, hp, rfl⟩ := List.mem_map.mp hx
    exact pagerank_ge pages p hpos
  obtain ⟨m, hm⟩ := pyListMax_isSome hrne
  obtain ⟨hmmem, hmub⟩ := pyListMax_spec hm
  have hmlow : (15/100 : ℚ) ≤ m := hrlow m hmmem
  have hmpos : 0 < m := lt_of_lt_of_le (by norm_num) hmlow
  have hnorm := normalize_false_pos hm (by linarith)
  have hlen : ((pages.map (PageDB.pagerank pages)).map (fun s => s / m)).length = pages.length := by
    simp
  have hstep : PageDB.solverLoop 1 pages = some (List.zipWith (fun p r => { p with pagerank := r })
      pages ((pages.map (PageDB.pagerank pages)).map (fun s => s / m))) := by
    conv_lhs => rw [PageDB.solverLoop]
    rw [show ((0 : Nat) == 0) = true from rfl]
    unfold PageDB.iterationStep
    simp only [if_true, hnorm]
    rw [PageDB.solverLoop]
  refine ⟨_, hstep, ?_, map_url_zipWith pages _ hlen, ?_, ?_⟩
  · simp [List.length_zipWith]
  · intro p hp
    have : p.pagerank ∈ (List.zipWith (fun p r => { p with pagerank := r })
        pages ((pages.map (PageDB.pagerank pages)).map (fun s => s / m))).map Page.pagerank :=
      List.mem_map_of_mem Page.pagerank hp
    rw [map_pagerank_zipWith pages _ hlen] at this
    obtain ⟨x, hx, hxe⟩ := List.mem_map.mp this
    have hx0 : (15/100 : ℚ) ≤ x := hrlow x hx
    rw [← hxe]
    exact div_nonneg (by linarith) hmpos.le
  · rw [map_pagerank_zipWith pages _ hlen]
    rw [pyListMax_eq_some_iff]
    constructor
    · exact List.mem_map.mpr ⟨m, hmmem, div_self hmpos.ne'⟩
    · intro y hy
      obtain ⟨x, hx, rfl⟩ := List.mem_map.mp hy
      exact (div_le_one hmpos).mpr (hmub x hx)

theorem solverLoop_spec : ∀ (n : Nat) (pages : List Page), pages ≠ [] →
    (∀ p ∈ pages, 0 ≤ p.pagerank) →
    ∃ final, PageDB.solverLoop (n+1) pages = some final ∧
      final.length = pages.length ∧
      final.map Page.url = pages.map Page.url ∧
      (∀ p ∈ final, 0 ≤ p.pagerank) ∧
      pyListMax (final.map Page.pagerank) = some 1 := by
  intro n
  induction n with
  | zero => exact fun pages h1 h2 => solverLoop_one h1 h2
  | succ k ih =>
    intro pages hne hpos
    rw [show k + 1 + 1 = k + 2 from rfl, solverLoop_step]
    have h1ne : pages.map (fun p => { p with pagerank := PageDB.pagerank pages p }) ≠ [] := by
      simpa [List.map_eq_nil_iff] using hne
    have h1pos : ∀ p ∈ pages.map (fun p => { p with pagerank := PageDB.pagerank pages p }),
        0 ≤ p.pagerank := by
      intro p hp
      obtain ⟨q, hq, rfl⟩ := List.mem_map.mp hp
      exact le_trans (by norm_num) (pagerank_ge pages q hpos)
    obtain ⟨final, h1, h2, h3, h4, h5⟩ :=
      ih (pages.map (fun p => { p with pagerank := PageDB.pagerank pages p })) h1ne h1pos
    refine ⟨final, h1, by simpa using h2, ?_, h4, h5⟩
    rw [h3, List.map_map]
    rfl

theorem solverLoop_total : ∀ (n : Nat) (pages : List Page), pages ≠ [] →
    ∃ final, PageDB.solverLoop (n+1) pages = some final ∧
      final.length = pages.length ∧ final.map Page.url = pages.map Page.url := by
  intro n
  induction n with
  | zero =>
    intro pages hne
    have hrne : pages.map (PageDB.pagerank pages) ≠ [] := by
      simpa [List.map_eq_nil_iff] using hne
    obtain ⟨m, hm⟩ := pyListMax_isSome hrne
    refine ⟨List.zipWith (fun p r => { p with pagerank := r }) pages
        ((pages.map (PageDB.pagerank pages)).map (fun s => s / pymax m 0.00001)), ?_, ?_, ?_⟩
    · conv_lhs => rw [PageDB.solverLoop]
      rw [show ((0 : Nat) == 0) = true from rfl]
      unfold PageDB.iterationStep
      simp only [if_true, PageDB.normalize, hm, Bool.false_eq_true, if_false]
      rw [PageDB.solverLoop]
    · simp [List.length_zipWith]
    · exact map_url_zipWith pages _ (by simp)
  | succ k ih =>
    intro pages hne
    rw [show k + 1 + 1 = k + 2 from rfl, solverLoop_step]
    obtain ⟨f, h1, h2, h3⟩ := ih (pages.map (fun p => { p with pagerank := PageDB.pagerank pages p }))
      (by simpa [List.map_eq_nil_iff] using hne)
    refine ⟨f, h1, by simpa using h2, ?_⟩
    rw [h3, List.map_map]
    rfl

theorem foldl_if_add_eq_sum (u : String) (pages : List Page) :
    ∀ acc : ℚ,
      pages.foldl
        (fun pr p => if u ∈ p.links then pr + p.pagerank / (p.links.card : ℚ) else pr) acc
      = acc + ((pages.map
          (fun q => if u ∈ q.links then q.pagerank / (q.links.card : ℚ) else 0)).sum) := by
  induction pages with
  | nil => intro acc; simp
  | cons p t ih =>
    intro acc
    simp only [List.foldl_cons, List.map_cons, List.sum_cons, ih]
    split <;> ring

/-- Claim C1 (amended): with zero pages every non-final iteration computes no
scores and succeeds, but the final iteration's rescale takes the max of the
empty rank list, which raises ValueError, so index construction faults on an
empty store; for every non-empty store the solver finishes without fault. -/
theorem spec_C1 :
    PageDB.iterationStep [] false = some [] ∧
    PageDB.iterationStep [] true = none ∧
    PageDB.runPagerank [] = none ∧
    ∀ pages : List Page, pages ≠ [] → ∃ final, PageDB.runPagerank pages = some final := by
  refine ⟨rfl, rfl, rfl, ?_⟩
  intro pages hne
  obtain ⟨f, h1, _⟩ := solverLoop_total 19 pages hne
  exact ⟨f, h1⟩

/-- Claim C1, as stated, is false on the code: on the empty store the
PageRank / final-rescale phase does fault (modelled by none). -/
theorem spec_C1_counterexample : PageDB.runPagerank [] = none := by
  rfl

/-- Witness for C1 at a concrete non-empty store. -/
theorem spec_C1_witness :
    ∃ final, PageDB.runPagerank
      [{ url := "a", words := [0], links := (∅ : Finset String), pagerank := 1 }]
        = some final :=
  spec_C1.2.2.2 [{ url := "a", words := [0], links := (∅ : Finset String), pagerank := 1 }]
    (by simp)

/-- Claim C2: each iteration's tentative score of a page equals
0.85 * (sum over pages q whose outlink set contains the page's url of
q's authority divided by the size of q's outlink set) + 0.15; a page with an
empty outlink set contributes nothing, and every contributing page has a
non-zero divisor; a non-final iteration overwrites every page's authority
with this formula evaluated on the previous snapshot only (Jacobi-style). -/
theorem spec_C2 (pages : List Page) (page : Page) :
    PageDB.pagerank pages page
      = 0.85 * ((pages.map
          (fun q => if page.url ∈ q.links then q.pagerank / (q.links.card : ℚ) else 0)).sum)
        + 0.15 ∧
    (∀ q ∈ pages, q.links = ∅ →
      (if page.url ∈ q.links then q.pagerank / (q.links.card : ℚ) else 0) = 0) ∧
    (∀ q ∈ pages, page.url ∈ q.links → ((q.links.card : ℚ)) ≠ 0) ∧
    PageDB.iterationStep pages false
      = some (pages.map (fun p => { p with pagerank := PageDB.pagerank pages p })) := by
  refine ⟨?_, ?_, ?_, iterationStep_false pages⟩
  · unfold PageDB.pagerank
    rw [foldl_if_add_eq_sum]
    ring
  · intro q _ hq
    simp [hq]
  · intro q _ hql
    have hc : 0 < q.links.card := Finset.card_pos.mpr ⟨page.url, hql⟩
    exact_mod_cast hc.ne'

/-- Claim C3: the solver runs 20 iterations, rescales only on the final one
(earlier iterations just overwrite with the raw formula), and for every
non-empty store whose authorities start non-negative it finishes with all
authorities non-negative and maximum authority exactly 1 (also for a
single-page store). -/
theorem spec_C3 (pages : List Page) (hne : pages ≠ [])
    (hpos : ∀ p ∈ pages, 0 ≤ p.pagerank) :
    PageDB.runPagerank pages = PageDB.solverLoop 20 pages ∧
    (∀ n, PageDB.solverLoop (n+2) pages
        = PageDB.solverLoop (n+1)
            (pages.map (fun p => { p with pagerank := PageDB.pagerank pages p }))) ∧
    ∃ final, PageDB.runPagerank pages = some final ∧
      final.length = pages.length ∧
      (∀ p ∈ final, 0 ≤ p.pagerank) ∧
      pyListMax (final.map Page.pagerank) = some 1 := by
  refine ⟨rfl, fun n => solverLoop_step n pages, ?_⟩
  obtain ⟨final, h1, h2, _, h4, h5⟩ := solverLoop_spec 19 pages hne hpos
  exact ⟨final, h1, h2, h4, h5⟩

/-- Witness for C3 at a concrete single-page store with authority 1. -/
theorem spec_C3_witness :
    ∃ final, PageDB.runPagerank
        [{ url := "a", words := [0], links := (∅ : Finset String), pagerank := 1 }]
        = some final ∧
      final.length = 1 ∧
      (∀ p ∈ final, 0 ≤ p.pagerank) ∧
      pyListMax (final.map Page.pagerank) = some 1 := by
  obtain ⟨f, h1, h2, h3, h4⟩ :=
    (spec_C3 [{ url := "a", words := [0], links := (∅ : Finset String), pagerank := 1 }]
      (by simp)
      (by intro p hp; rw [List.mem_singleton] at hp; subst hp; norm_num)).2.2
  exact ⟨f, h1, by simpa using h2, h3, h4⟩

/-- Witness for C2 at a concrete two-page store. -/
theorem spec_C2_witness :
    PageDB.pagerank
        [({ url := "a", words := [0], links := ({"a"} : Finset String), pagerank := 1 } : Page)]
        ({ url := "a", words := [0], links := ({"a"} : Finset String), pagerank := 1 } : Page)
      = 0.85 * (([({ url := "a", words := [0], links := ({"a"} : Finset String), pagerank := 1 } : Page)].map
          (fun q => if (("a" : String) ∈ q.links) then q.pagerank / (q.links.card : ℚ) else 0)).sum)
        + 0.15 :=
  (spec_C2 [({ url := "a", words := [0], links := ({"a"} : Finset String), pagerank := 1 } : Page)]
    ({ url := "a", words := [0], links := ({"a"} : Finset String), pagerank := 1 } : Page)).1

/-! Helper lemmas about the term dictionary. -/

theorem get_id_of_mem {ws : List String} {w : String} (h : w ∈ ws) :
    PageDB.get_id_for_word ws w = (ws.indexOf w, ws) := by
  simp [PageDB.get_id_for_word, h]

theorem get_id_of_not_mem {ws : List String} {w : String} (h : w ∉ ws) :
    PageDB.get_id_for_word ws w = (ws.length, ws ++ [w]) := by
  simp [PageDB.get_id_for_word, h]

theorem wordsToIds_extend :
    ∀ (ts : List String) (ws : List String),
      ∃ ext, (PageDB.wordsToIds ws ts).2 = ws ++ ext := by
  intro ts
  induction ts with
  | nil => intro ws; exact ⟨[], by simp [PageDB.wordsToIds]⟩
  | cons t ts ih =>
    intro ws
    by_cases h : t ∈ ws
    · obtain ⟨ext, hext⟩ := ih ws
      refine ⟨ext, ?_⟩
      simp [PageDB.wordsToIds, get_id_of_mem h, hext]
    · obtain ⟨ext, hext⟩ := ih (ws ++ [t])
      refine ⟨[t] ++ ext, ?_⟩
      simp [PageDB.wordsToIds, get_id_of_not_mem h, hext]

theorem wordsToIds_nodup :
    ∀ (ts : List String) (ws : List String), ws.Nodup →
      (PageDB.wordsToIds ws ts).2.Nodup := by
  intro ts
  induction ts with
  | nil => intro ws h; simpa [PageDB.wordsToIds]
  | cons t ts ih =>
    intro ws h
    by_cases hm : t ∈ ws
    · simpa [PageDB.wordsToIds, get_id_of_mem hm] using ih ws h
    · have h2 : (ws ++ [t]).Nodup := by
        rw [List.nodup_append]
        refine ⟨h, List.nodup_singleton t, ?_⟩
        intro a ha hb
        rw [List.mem_singleton] at hb
        subst hb
        exact hm ha
      simpa [PageDB.wordsToIds, get_id_of_not_mem hm] using ih (ws ++ [t]) h2

theorem wordsToIds_token_mem :
    ∀ (ts : List String) (ws : List String) (t : String), t ∈ ts →
      t ∈ (PageDB.wordsToIds ws ts).2 := by
  intro ts
  induction ts with
  | nil => intro ws t h; simp at h
  | cons u ts ih =>
    intro ws t h
    rcases List.mem_cons.mp h with h | h
    · subst h
      by_cases hm : t ∈ ws
      · obtain ⟨ext, hext⟩ := wordsToIds_extend ts ws
        simp only [PageDB.wordsToIds, get_id_of_mem hm]
        rw [hext]
        exact List.mem_append_left ext hm
      · obtain ⟨ext, hext⟩ := wordsToIds_extend ts (ws ++ [t])
        simp only [PageDB.wordsToIds, get_id_of_not_mem hm]
        rw [hext]
        exact List.mem_append_left ext (by simp)
    · by_cases hm : u ∈ ws
      · simpa [PageDB.wordsToIds, get_id_of_mem hm] using ih ws t h
      · simpa [PageDB.wordsToIds, get_id_of_not_mem hm] using ih (ws ++ [u]) t h

theorem indexOf_append_of_not_mem {a : String} :
    ∀ (l1 l2 : List String), a ∉ l1 →
      List.indexOf a (l1 ++ l2) = l1.length + List.indexOf a l2 := by
  intro l1
  induction l1 with
  | nil => intro l2 _; simp
  | cons b t ih =>
    intro l2 h
    have hba : b ≠ a := fun he => h (he ▸ List.mem_cons_self b t)
    have hat : a ∉ t := fun he => h (List.mem_cons_of_mem b he)
    rw [List.cons_append, List.indexOf_cons_ne _ hba, ih l2 hat]
    simp [Nat.succ_eq_add_one]
    omega

theorem wordsToIds_stable :
    ∀ (ts ws : List String) (w : String), w ∈ ws →
      (PageDB.get_id_for_word (PageDB.wordsToIds ws ts).2 w).1
        = (PageDB.get_id_for_word ws w).1 := by
  intro ts ws w h
  obtain ⟨ext, hext⟩ := wordsToIds_extend ts ws
  rw [hext, get_id_of_mem (List.mem_append_left ext h), get_id_of_mem h]
  exact List.indexOf_append_of_mem h

/-- Claim C5: re-querying a seen term returns the same ID even after further
calls, a fresh term is assigned the current dictionary size, and after any
sequence of calls starting from the empty dictionary the assigned IDs are
exactly 0..n-1 for the n distinct terms, distinct terms getting distinct
IDs. -/
theorem spec_C5 (calls : List String) :
    (∀ (ws : List String) (ts : List String) (w : String), w ∈ ws →
      (PageDB.get_id_for_word (PageDB.wordsToIds ws ts).2 w).1
        = (PageDB.get_id_for_word ws w).1) ∧
    (∀ (ws : List String) (w : String), w ∉ ws →
      (PageDB.get_id_for_word ws w).1 = ws.length) ∧
    (PageDB.wordsToIds [] calls).2.Nodup ∧
    (∀ w ∈ (PageDB.wordsToIds [] calls).2,
      (PageDB.get_id_for_word (PageDB.wordsToIds [] calls).2 w).1
        < (PageDB.wordsToIds [] calls).2.length) ∧
    (∀ k, k < (PageDB.wordsToIds [] calls).2.length →
      ∃ w ∈ (PageDB.wordsToIds [] calls).2,
        (PageDB.get_id_for_word (PageDB.wordsToIds [] calls).2 w).1 = k) ∧
    (∀ w v, w ∈ (PageDB.wordsToIds [] calls).2 → v ∈ (PageDB.wordsToIds [] calls).2 →
      w ≠ v →
      (PageDB.get_id_for_word (PageDB.wordsToIds [] calls).2 w).1
        ≠ (PageDB.get_id_for_word (PageDB.wordsToIds [] calls).2 v).1) := by
  have hnodup : (PageDB.wordsToIds [] calls).2.Nodup :=
    wordsToIds_nodup calls [] List.nodup_nil
  refine ⟨fun ws ts w h => wordsToIds_stable ts ws w h,
    fun ws w h => by rw [get_id_of_not_mem h],
    hnodup, ?_, ?_, ?_⟩
  · intro w hw
    rw [get_id_of_mem hw]
    exact List.indexOf_lt_length.mpr hw
  · intro k hk
    refine ⟨(PageDB.wordsToIds [] calls).2.get ⟨k, hk⟩, List.get_mem _ k hk, ?_⟩
    rw [get_id_of_mem (List.get_mem _ k hk)]
    exact List.get_indexOf hnodup ⟨k, hk⟩
  · intro w v hw hv hne heq
    rw [get_id_of_mem hw, get_id_of_mem hv] at heq
    dsimp only at heq
    have h1 := List.indexOf_get (List.indexOf_lt_length.mpr hw)
    have h2 := List.indexOf_get (List.indexOf_lt_length.mpr hv)
    apply hne
    rw [← h1, ← h2]
    congr 1
    exact Fin.ext heq

/-- Witness for C5: a fresh term is assigned the dictionary size. -/
theorem spec_C5_witness :
    (PageDB.get_id_for_word ["a"] "b").1 = ["a"].length :=
  (spec_C5 []).2.1 ["a"] "b" (by simp)

/-- Claim C6: a page is in the candidate list exactly when some query term id
occurs in its term sequence, and each store entry appears in the candidate
list exactly as often as in the store (once per entry, never duplicated by
several matching terms). -/
theorem spec_C6 (pages : List Page) (query_ints : List Nat) (p : Page) :
    (p ∈ PageDB.findMatches pages query_ints ↔
      p ∈ pages ∧ ∃ t ∈ query_ints, t ∈ p.words) ∧
    List.count p (PageDB.findMatches pages query_ints)
      = if ∃ t ∈ query_ints, t ∈ p.words then List.count p pages else 0 := by
  constructor
  · simp [PageDB.findMatches, List.mem_filter, List.any_eq_true]
  · unfold PageDB.findMatches
    split
    · rename_i h
      apply List.count_filter
      simpa [List.any_eq_true] using h
    · rename_i h
      rw [List.count_eq_zero]
      intro hmem
      rw [List.mem_filter, List.any_eq_true] at hmem
      exact h (by simpa using hmem.2)

/-- Witness for C6 at a concrete store and query. -/
theorem spec_C6_witness :
    ({ url := "x", words := [3, 3, 7], links := (∅ : Finset String), pagerank := 1 } : Page)
        ∈ PageDB.findMatches
          [({ url := "x", words := [3, 3, 7], links := (∅ : Finset String), pagerank := 1 } : Page)]
          [3]
      ↔ ({ url := "x", words := [3, 3, 7], links := (∅ : Finset String), pagerank := 1 } : Page)
          ∈ [({ url := "x", words := [3, 3, 7], links := (∅ : Finset String), pagerank := 1 } : Page)]
        ∧ ∃ t ∈ [3], t ∈ [3, 3, 7] :=
  (spec_C6 [({ url := "x", words := [3, 3, 7], links := (∅ : Finset String), pagerank := 1 } : Page)]
    [3] ({ url := "x", words := [3, 3, 7], links := (∅ : Finset String), pagerank := 1 } : Page)).1

/-! Helper lemmas about first indices. -/

theorem indexOf?_of_mem {a : Nat} :
    ∀ l : List Nat, a ∈ l → List.indexOf? a l = some (List.indexOf a l) := by
  intro l
  induction l with
  | nil => intro h; simp at h
  | cons b t ih =>
    intro h
    by_cases hb : b = a
    · subst hb
      simp [List.indexOf?, List.findIdx?_cons, List.indexOf_cons_self]
    · have hat : a ∈ t := by
        rcases List.mem_cons.mp h with h1 | h1
        · exact absurd h1.symm hb
        · exact h1
      have hIH := ih hat
      rw [List.indexOf_cons_ne _ hb]
      simp only [List.indexOf?, List.findIdx?_cons, beq_iff_eq, hb, if_false,
        List.findIdx?_succ]
      simp only [List.indexOf?] at hIH
      rw [hIH]
      rfl

theorem indexOf?_of_not_mem {a : Nat} {l : List Nat} (h : a ∉ l) :
    List.indexOf? a l = none := by
  rw [List.indexOf?_eq_none_iff]
  intro x hx
  simp only [beq_iff_eq]
  intro he
  exact h (he ▸ hx)

theorem not_mem_take_indexOf {a : Nat} :
    ∀ l : List Nat, a ∉ l.take (List.indexOf a l) := by
  intro l
  induction l with
  | nil => simp
  | cons b t ih =>
    by_cases hb : b = a
    · subst hb
      simp [List.indexOf_cons_self]
    · rw [List.indexOf_cons_ne _ hb]
      intro hmem
      rw [Nat.succ_eq_add_one, List.take_succ_cons] at hmem
      rcases List.mem_cons.mp hmem with h1 | h1
      · exact hb h1.symm
      · exact ih h1

theorem foldl_add_count (ws : List Nat) :
    ∀ (l : List Nat) (acc : Nat),
      l.foldl (fun score q => score + ws.count q) acc
        = acc + (l.map (fun q => ws.count q)).sum := by
  intro l
  induction l with
  | nil => intro acc; simp
  | cons q t ih =>
    intro acc
    simp only [List.foldl_cons, List.map_cons, List.sum_cons, ih]
    omega

theorem foldl_add_location (ws : List Nat) :
    ∀ (l : List Nat) (acc : Nat),
      l.foldl
        (fun score w =>
          match ws.indexOf? w with
          | some idx => score + (idx + 1)
          | none => score + 100000) acc
        = acc + (l.map (fun w =>
            match ws.indexOf? w with
            | some idx => idx + 1
            | none => 100000)).sum := by
  intro l
  induction l with
  | nil => intro acc; simp
  | cons q t ih =>
    intro acc
    rw [List.foldl_cons, List.map_cons, List.sum_cons]
    cases h : ws.indexOf? q with
    | some idx =>
      change List.foldl _ (acc + (idx + 1)) t = acc + (idx + 1 + _)
      rw [ih]
      omega
    | none =>
      change List.foldl _ (acc + 100000) t = acc + (100000 + _)
      rw [ih]
      omega

/-- Claim C7: the raw content score is the sum over query ids of occurrence
counts in the page's term sequence; the raw location score is the sum over
query ids of first index + 1, with sentinel 100000 for absent ids, and the
index used really is the first occurrence. -/
theorem spec_C7 (page : Page) (query_ints : List Nat) :
    PageDB.word_frequency page query_ints
      = (query_ints.map (fun q => page.words.count q)).sum ∧
    PageDB.document_location page query_ints
      = (query_ints.map (fun w =>
          if w ∈ page.words then List.indexOf w page.words + 1 else 100000)).sum ∧
    (∀ w ∈ query_ints, w ∈ page.words →
      page.words[List.indexOf w page.words]? = some w ∧
      w ∉ page.words.take (List.indexOf w page.words)) := by
  refine ⟨?_, ?_, ?_⟩
  · unfold PageDB.word_frequency
    rw [foldl_add_count]
    simp
  · unfold PageDB.document_location
    rw [foldl_add_location]
    simp only [Nat.zero_add]
    congr 1
    apply List.map_congr_left
    intro w _
    by_cases h : w ∈ page.words
    · rw [indexOf?_of_mem page.words h, if_pos h]
    · rw [indexOf?_of_not_mem h, if_neg h]
  · intro w _ hw
    have hlt : List.indexOf w page.words < page.words.length :=
      List.indexOf_lt_length.mpr hw
    constructor
    · rw [List.getElem?_eq_getElem hlt]
      refine congrArg some ?_
      exact List.indexOf_get hlt
    · exact not_mem_take_indexOf page.words

/-- Witness for C7 at a concrete page and query. -/
theorem spec_C7_witness :
    PageDB.word_frequency
        ({ url := "x", words := [3, 3, 7], links := (∅ : Finset String), pagerank := 1 } : Page)
        [3, 9]
      = ([3, 9].map (fun q => [3, 3, 7].count q)).sum :=
  (spec_C7 ({ url := "x", words := [3, 3, 7], links := (∅ : Finset String), pagerank := 1 } : Page)
    [3, 9]).1


/-! Helper lemmas about the query pipeline. -/

theorem buildRows_length (mp : List Page) (c l : List ℚ)
    (hc : c.length = mp.length) (hl : l.length = mp.length) :
    (PageDB.buildRows mp c l).length = mp.length := by
  simp [PageDB.buildRows, List.length_zipWith, List.length_zip, hc, hl]

theorem query_eq_nil (words : List String) (pages : List Page) (q : String)
    (h : PageDB.qMatches words pages q = []) :
    PageDB.query words pages q
      = some ({ data := [], amount := 0 }, PageDB.qDict words q) := by
  rw [PageDB.qMatches, PageDB.qIds] at h
  unfold PageDB.query PageDB.qDict
  simp [h, PageDB.buildRows]

theorem query_eq_pos (words : List String) (pages : List Page) (q : String)
    (h : PageDB.qMatches words pages q ≠ []) :
    ∃ mc ml,
      pyListMax (PageDB.qContent words pages q) = some mc ∧
      pyListMin (PageDB.qLocation words pages q) = some ml ∧
      PageDB.query words pages q
        = some (PageDB.rowsOf (PageDB.qMatches words pages q)
            ((PageDB.qContent words pages q).map (fun s => s / pymax mc 0.00001))
            ((PageDB.qLocation words pages q).map (fun s => ml / pymax s 0.00001)),
          PageDB.qDict words q) := by
  have hcne : PageDB.qContent words pages q ≠ [] := by
    simpa [PageDB.qContent, List.map_eq_nil_iff] using h
  have hlne : PageDB.qLocation words pages q ≠ [] := by
    simpa [PageDB.qLocation, List.map_eq_nil_iff] using h
  obtain ⟨mc, hmc⟩ := pyListMax_isSome hcne
  obtain ⟨ml, hml⟩ := pyListMin_isSome hlne
  have hnc : PageDB.normalize (PageDB.qContent words pages q) false
      = some ((PageDB.qContent words pages q).map (fun s => s / pymax mc 0.00001)) := by
    simp [PageDB.normalize, hmc]
  have hnl := normalize_true_eq hml
  have hpos : 0 < (PageDB.qMatches words pages q).length := List.length_pos.mpr h
  refine ⟨mc, ml, hmc, hml, ?_⟩
  rw [PageDB.qMatches, PageDB.qIds] at hpos
  rw [PageDB.qContent, PageDB.qMatches, PageDB.qIds] at hnc
  rw [PageDB.qLocation, PageDB.qMatches, PageDB.qIds] at hnl
  unfold PageDB.query PageDB.rowsOf PageDB.qMatches PageDB.qIds PageDB.qContent PageDB.qLocation PageDB.qDict
  simp only [hpos, if_true, hnc, hnl]
  rfl

theorem sorted_take_mergeSort (rows : List ResultRow) :
    List.Sorted (fun a b : ResultRow => b.total ≤ a.total)
      ((rows.mergeSort PageDB.resultLE).take 5) := by
  have htrans : ∀ a b c : ResultRow, PageDB.resultLE a b = true →
      PageDB.resultLE b c = true → PageDB.resultLE a c = true := by
    intro a b c hab hbc
    simp only [PageDB.resultLE, decide_eq_true_eq] at *
    exact le_trans hbc hab
  have htot : ∀ a b : ResultRow, (PageDB.resultLE a b || PageDB.resultLE b a) = true := by
    intro a b
    simp only [PageDB.resultLE, Bool.or_eq_true, decide_eq_true_eq]
    exact le_total b.total a.total
  have hs := List.sorted_mergeSort htrans htot rows
  have hs2 : List.Pairwise (fun a b : ResultRow => b.total ≤ a.total)
      (rows.mergeSort PageDB.resultLE) := by
    refine hs.imp ?_
    intro a b hab
    simpa [PageDB.resultLE, decide_eq_true_eq] using hab
  exact List.Pairwise.sublist (List.take_sublist 5 _) hs2

/-- Claim C4: the query always succeeds, its result list is sorted by total
in non-increasing order, has at most 5 entries, the reported amount is the
candidate count before truncation, and a candidate-free query yields the
empty list with amount 0. -/
theorem spec_C4 (words : List String) (pages : List Page) (q : String) :
    ∃ res words2, PageDB.query words pages q = some (res, words2) ∧
      List.Sorted (fun a b : ResultRow => b.total ≤ a.total) res.data ∧
      res.data.length ≤ 5 ∧
      res.amount = (PageDB.qMatches words pages q).length ∧
      (PageDB.qMatches words pages q = [] → res.data = [] ∧ res.amount = 0) := by
  by_cases h : PageDB.qMatches words pages q = []
  · refine ⟨{ data := [], amount := 0 }, PageDB.qDict words q,
      query_eq_nil words pages q h, ?_, ?_, ?_, ?_⟩
    · exact List.sorted_nil
    · simp
    · simp [h]
    · intro _
      exact ⟨rfl, rfl⟩
  · obtain ⟨mc, ml, hmc, hml, hq⟩ := query_eq_pos words pages q h
    refine ⟨_, _, hq, ?_, ?_, ?_, ?_⟩
    · exact sorted_take_mergeSort _
    · exact List.length_take_le 5 _
    · show (PageDB.buildRows _ _ _).length = _
      apply buildRows_length <;> simp [PageDB.qContent, PageDB.qLocation]
    · intro he
      exact absurd he h

/-- Witness for C4 at a concrete query. -/
theorem spec_C4_witness :
    ∃ res words2, PageDB.query [] [] "" = some (res, words2) ∧
      List.Sorted (fun a b : ResultRow => b.total ≤ a.total) res.data ∧
      res.data.length ≤ 5 ∧
      res.amount = (PageDB.qMatches [] [] "").length ∧
      (PageDB.qMatches [] [] "" = [] → res.data = [] ∧ res.amount = 0) :=
  spec_C4 [] [] ""

theorem mem_qMatches_exists {words : List String} {pages : List Page} {q : String}
    {m : Page} (hm : m ∈ PageDB.qMatches words pages q) :
    ∃ t ∈ PageDB.qIds words q, t ∈ m.words := by
  rw [PageDB.qMatches, PageDB.findMatches, List.mem_filter] at hm
  rw [List.any_eq_true] at hm
  obtain ⟨t, ht, htm⟩ := hm.2
  exact ⟨t, ht, by simpa using htm⟩

theorem word_frequency_ge_one {m : Page} {qi : List Nat}
    (h : ∃ t ∈ qi, t ∈ m.words) : 1 ≤ PageDB.word_frequency m qi := by
  obtain ⟨t, ht, htm⟩ := h
  unfold PageDB.word_frequency
  rw [foldl_add_count]
  have h1 : 0 < m.words.count t := List.count_pos_iff.mpr htm
  have h2 : m.words.count t ≤ (qi.map (fun u => m.words.count u)).sum :=
    List.single_le_sum (fun x _ => Nat.zero_le x) _ (List.mem_map_of_mem _ ht)
  omega

theorem document_location_ge_one {m : Page} {qi : List Nat}
    (h : qi ≠ []) : 1 ≤ PageDB.document_location m qi := by
  obtain ⟨t, ht⟩ := List.exists_mem_of_ne_nil qi h
  unfold PageDB.document_location
  rw [foldl_add_location]
  have h1 : 1 ≤ (match m.words.indexOf? t with
      | some idx => idx + 1
      | none => 100000) := by
    cases m.words.indexOf? t with
    | some i =>
      change 1 ≤ i + 1
      omega
    | none =>
      change (1 : ℕ) ≤ 100000
      omega
  have h2 : (match m.words.indexOf? t with
      | some idx => idx + 1
      | none => 100000)
      ≤ (qi.map (fun w => match m.words.indexOf? w with
          | some idx => idx + 1
          | none => 100000)).sum :=
    List.single_le_sum (fun x _ => Nat.zero_le x) _ (List.mem_map_of_mem _ ht)
  omega

theorem qContent_ge_one {words : List String} {pages : List Page} {q : String}
    {x : ℚ} (hx : x ∈ PageDB.qContent words pages q) : 1 ≤ x := by
  rw [PageDB.qContent, List.mem_map] at hx
  obtain ⟨m, hm, rfl⟩ := hx
  have := word_frequency_ge_one (mem_qMatches_exists hm)
  exact_mod_cast this

theorem qLocation_ge_one {words : List String} {pages : List Page} {q : String}
    (hne : PageDB.qMatches words pages q ≠ [])
    {x : ℚ} (hx : x ∈ PageDB.qLocation words pages q) : 1 ≤ x := by
  obtain ⟨m0, hm0⟩ := List.exists_mem_of_ne_nil _ hne
  obtain ⟨t, ht, _⟩ := mem_qMatches_exists hm0
  have hqi : PageDB.qIds words q ≠ [] := List.ne_nil_of_mem ht
  rw [PageDB.qLocation, List.mem_map] at hx
  obtain ⟨m, _, rfl⟩ := hx
  have := document_location_ge_one (m := m) hqi
  exact_mod_cast this

/-- Claim C8: with a non-empty candidate set the content scores are divided
by the clamped maximum and the location scores replaced by
min / max(value, 0.00001); every normalized value then lies in (0, 1] and
any candidate holding the minimal raw location score is normalized to
exactly 1; with no candidates the query skips normalization and returns the
empty envelope. -/
theorem spec_C8 (words : List String) (pages : List Page) (q : String) :
    (PageDB.qMatches words pages q = [] →
      PageDB.query words pages q
        = some ({ data := [], amount := 0 }, PageDB.qDict words q)) ∧
    (PageDB.qMatches words pages q ≠ [] →
      ∃ mc ml,
        pyListMax (PageDB.qContent words pages q) = some mc ∧
        pyListMin (PageDB.qLocation words pages q) = some ml ∧
        PageDB.normalize (PageDB.qContent words pages q) false
          = some ((PageDB.qContent words pages q).map (fun s => s / pymax mc 0.00001)) ∧
        PageDB.normalize (PageDB.qLocation words pages q) true
          = some ((PageDB.qLocation words pages q).map (fun s => ml / pymax s 0.00001)) ∧
        (∀ x ∈ (PageDB.qContent words pages q).map (fun s => s / pymax mc 0.00001),
          0 < x ∧ x ≤ 1) ∧
        (∀ x ∈ (PageDB.qLocation words pages q).map (fun s => ml / pymax s 0.00001),
          0 < x ∧ x ≤ 1) ∧
        (∀ i : Nat, (PageDB.qLocation words pages q)[i]? = some ml →
          ((PageDB.qLocation words pages q).map (fun s => ml / pymax s 0.00001))[i]?
            = some 1)) := by
  constructor
  · exact query_eq_nil words pages q
  · intro h
    have hcne : PageDB.qContent words pages q ≠ [] := by
      simpa [PageDB.qContent, List.map_eq_nil_iff] using h
    have hlne : PageDB.qLocation words pages q ≠ [] := by
      simpa [PageDB.qLocation, List.map_eq_nil_iff] using h
    obtain ⟨mc, hmc⟩ := pyListMax_isSome hcne
    obtain ⟨ml, hml⟩ := pyListMin_isSome hlne
    obtain ⟨hmcmem, hmcub⟩ := pyListMax_spec hmc
    obtain ⟨hmlmem, hmllb⟩ := pyListMin_spec hml
    have hmc1 : 1 ≤ mc := qContent_ge_one hmcmem
    have hml1 : 1 ≤ ml := qLocation_ge_one h hmlmem
    have hmcfix : pymax mc 0.00001 = mc := pymax_eq_left (by norm_num; linarith)
    refine ⟨mc, ml, hmc, hml, by simp [PageDB.normalize, hmc], normalize_true_eq hml,
      ?_, ?_, ?_⟩
    · intro x hx
      rw [List.mem_map] at hx
      obtain ⟨s, hs, rfl⟩ := hx
      have hs1 : 1 ≤ s := qContent_ge_one hs
      rw [hmcfix]
      constructor
      · exact div_pos (by linarith) (by linarith)
      · exact (div_le_one (by linarith)).mpr (hmcub s hs)
    · intro x hx
      rw [List.mem_map] at hx
      obtain ⟨s, hs, rfl⟩ := hx
      have hs1 : 1 ≤ s := qLocation_ge_one h hs
      have hsfix : pymax s 0.00001 = s := pymax_eq_left (by norm_num; linarith)
      rw [hsfix]
      constructor
      · exact div_pos (by linarith) (by linarith)
      · exact (div_le_one (by linarith)).mpr (hmllb s hs)
    · intro i hi
      rw [List.getElem?_map, hi]
      have hmlfix : pymax ml 0.00001 = ml := pymax_eq_left (by norm_num; linarith)
      simp only [Option.map_some']
      rw [hmlfix]
      rw [div_self (by linarith)]

/-- Witness for C8: a candidate-free query returns the empty envelope with
no normalization. -/
theorem spec_C8_witness :
    PageDB.query [] [] ""
      = some ({ data := [], amount := 0 }, PageDB.qDict [] "") :=
  (spec_C8 [] [] "").1 rfl

/-- Claim C9: the query tokenizes by whitespace after lowercasing, never
fails, adds every previously-unseen query token to the shared dictionary as
a side effect, and the ID such a token receives lies beyond every term ID
stored in any page, so it matches no page. -/
theorem spec_C9 (words : List String) (pages : List Page) (q : String)
    (hbound : ∀ p ∈ pages, ∀ i ∈ p.words, i < words.length) :
    ∃ res, PageDB.query words pages q = some (res, PageDB.qDict words q) ∧
      (PageDB.qDict words q).take words.length = words ∧
      (∀ t ∈ PageDB.tokenize q, t ∈ PageDB.qDict words q) ∧
      (∀ t ∈ PageDB.tokenize q, t ∉ words →
        words.length ≤ List.indexOf t (PageDB.qDict words q) ∧
        ∀ p ∈ pages, List.indexOf t (PageDB.qDict words q) ∉ p.words) := by
  obtain ⟨ext, hext⟩ := wordsToIds_extend (PageDB.tokenize q) words
  have hqd : PageDB.qDict words q = words ++ ext := hext
  have hquery : ∃ res, PageDB.query words pages q = some (res, PageDB.qDict words q) := by
    by_cases h : PageDB.qMatches words pages q = []
    · exact ⟨_, query_eq_nil words pages q h⟩
    · obtain ⟨mc, ml, _, _, hq⟩ := query_eq_pos words pages q h
      exact ⟨_, hq⟩
  obtain ⟨res, hres⟩ := hquery
  refine ⟨res, hres, ?_, ?_, ?_⟩
  · rw [hqd]
    exact List.take_left words ext
  · intro t ht
    exact wordsToIds_token_mem (PageDB.tokenize q) words t ht
  · intro t ht htw
    have hge : words.length ≤ List.indexOf t (PageDB.qDict words q) := by
      rw [hqd, indexOf_append_of_not_mem words ext htw]
      exact Nat.le_add_right _ _
    refine ⟨hge, ?_⟩
    intro p hp hmem
    have := hbound p hp _ hmem
    omega

/-- Witness for C9: querying an unseen term against a one-page store. -/
theorem spec_C9_witness :
    ∃ res, PageDB.query ["guitar"]
        [({ url := "x", words := [0], links := (∅ : Finset String), pagerank := 1 } : Page)]
        "amp"
      = some (res, PageDB.qDict ["guitar"] "amp") ∧
      (PageDB.qDict ["guitar"] "amp").take (["guitar"].length) = ["guitar"] ∧
      (∀ t ∈ PageDB.tokenize ("amp"), t ∈ PageDB.qDict ["guitar"] "amp") ∧
      (∀ t ∈ PageDB.tokenize ("amp"), t ∉ ["guitar"] →
        (["guitar"].length) ≤ List.indexOf t (PageDB.qDict ["guitar"] "amp") ∧
        ∀ p ∈ [({ url := "x", words := [0], links := (∅ : Finset String), pagerank := 1 } : Page)],
          List.indexOf t (PageDB.qDict ["guitar"] "amp") ∉ p.words) :=
  spec_C9 ["guitar"]
    [({ url := "x", words := [0], links := (∅ : Finset String), pagerank := 1 } : Page)]
    "amp"
    (by
      intro p hp i hi
      rw [List.mem_singleton] at hp
      subst hp
      simp only [List.mem_singleton] at hi
      subst hi
      simp)

theorem ingest_words_extend :
    ∀ (dataset : List RawPage) (ws : List String),
      ∃ ext, (PageDB.ingest ws dataset).1 = ws ++ ext := by
  intro dataset
  induction dataset with
  | nil => intro ws; exact ⟨[], by simp [PageDB.ingest]⟩
  | cons r rs ih =>
    intro ws
    obtain ⟨e1, he1⟩ := wordsToIds_extend r.tokens ws
    obtain ⟨e2, he2⟩ := ih (PageDB.wordsToIds ws r.tokens).2
    refine ⟨e1 ++ e2, ?_⟩
    simp only [PageDB.ingest]
    rw [he2, he1, List.append_assoc]

/-- Claim C10: the dictionary and page list are process-global class state:
constructing a further PageDB appends its pages to the pages of every
earlier instance (the solver then runs over the combined list, preserving
its urls and length) and keeps every existing term at its old ID. -/
theorem spec_C10 (s : DBState) (dataset : List RawPage)
    (hne : s.pages ++ (PageDB.ingest s.words dataset).2 ≠ []) :
    ∃ s2, PageDB.init s dataset = some s2 ∧
      s2.words = (PageDB.ingest s.words dataset).1 ∧
      s2.words.take s.words.length = s.words ∧
      (∀ w ∈ s.words, List.indexOf w s2.words = List.indexOf w s.words) ∧
      s2.pages.map Page.url
        = s.pages.map Page.url ++ (PageDB.ingest s.words dataset).2.map Page.url ∧
      s2.pages.length = s.pages.length + (PageDB.ingest s.words dataset).2.length := by
  obtain ⟨f, hsolve, hlen, hurl⟩ :=
    solverLoop_total 19 (s.pages ++ (PageDB.ingest s.words dataset).2) hne
  have hrun : PageDB.runPagerank (s.pages ++ (PageDB.ingest s.words dataset).2)
      = some f := hsolve
  obtain ⟨ext, hext⟩ := ingest_words_extend dataset s.words
  refine ⟨{ words := (PageDB.ingest s.words dataset).1, pages := f },
    ?_, rfl, ?_, ?_, ?_, ?_⟩
  · unfold PageDB.init
    simp only [hrun]
  · rw [hext]
    exact List.take_left s.words ext
  · intro w hw
    rw [hext]
    exact List.indexOf_append_of_mem hw
  · rw [hurl, List.map_append]
  · rw [hlen, List.length_append]

/-- Witness for C10: a second construction on top of a one-page store. -/
theorem spec_C10_witness :
    ∃ s2, PageDB.init
        { words := ["guitar"],
          pages := [({ url := "x", words := [0], links := (∅ : Finset String), pagerank := 1 } : Page)] }
        [] = some s2 ∧
      s2.words = (PageDB.ingest ["guitar"] []).1 ∧
      s2.words.take (["guitar"].length) = ["guitar"] ∧
      (∀ w ∈ ["guitar"], List.indexOf w s2.words = List.indexOf w ["guitar"]) ∧
      s2.pages.map Page.url
        = [({ url := "x", words := [0], links := (∅ : Finset String), pagerank := 1 } : Page)].map Page.url
            ++ (PageDB.ingest ["guitar"] []).2.map Page.url ∧
      s2.pages.length
        = [({ url := "x", words := [0], links := (∅ : Finset String), pagerank := 1 } : Page)].length
            + (PageDB.ingest ["guitar"] []).2.length :=
  spec_C10
    { words := ["guitar"],
      pages := [({ url := "x", words := [0], links := (∅ : Finset String), pagerank := 1 } : Page)] }
    [] (by simp [PageDB.ingest])
